import Mathlib

/-!
Shallow embedding of the email channel (`src/channels/email.rs`) of the
zeroclaw-rust repository, with proofs about its pure core: the
thread-metadata JSON codec, recipient parsing, sender authorization,
address validation, reply-subject derivation, and the poll loop's
dedup/authorization pipeline together with its error handling.

Rust strings are modelled as Lean `String` (a list of unicode scalar
values, matching Rust's `char` view of `str`); machine integers that
never overflow in the modelled code (`u16` ports, `u64` seconds, `u32`
IMAP uids) are modelled as `Nat`.  External libraries (TLS sockets, the
IMAP protocol client, the `mailparse` MIME parser, the `lettre` SMTP
transport) are modelled as oracle-style environment records; the
`serde_json` serialization of the two-field `EmailThreadMeta` struct is
modelled concretely, by a JSON renderer and parser that follow
`serde_json`'s grammar.
-/

namespace ZeroClaw

/-- The separator constant `EMAIL_REPLY_META_SEP`, U+001F. -/
def sepChar : Char := Char.ofNat 0x1F

/-- `EMAIL_REPLY_META_SEP` as a one-character string. -/
def EMAIL_REPLY_META_SEP : String := String.mk [sepChar]

/-- Rust `char::to_ascii_lowercase`: map `A`..`Z` to `a`..`z`, leave
every other character unchanged. -/
def asciiLowerChar (c : Char) : Char :=
  if 'A' ≤ c ∧ c ≤ 'Z' then Char.ofNat (c.toNat + 32) else c

/-- Rust `str::eq_ignore_ascii_case`.  The byte-level Rust definition is
equivalent to comparing the two strings character by character after
`to_ascii_lowercase`, because ASCII folding is the identity on all
non-ASCII bytes and UTF-8 encoding is injective. -/
def eq_ignore_ascii_case (a b : String) : Bool :=
  a.data.map asciiLowerChar == b.data.map asciiLowerChar

/-- The scalar values with the Unicode `White_Space` property, which is
what Rust's `char::is_whitespace` (used by `str::trim`) tests. -/
def rustWhitespaceCodes : List Nat :=
  [0x09, 0x0A, 0x0B, 0x0C, 0x0D, 0x20, 0x85, 0xA0, 0x1680,
   0x2000, 0x2001, 0x2002, 0x2003, 0x2004, 0x2005, 0x2006, 0x2007,
   0x2008, 0x2009, 0x200A, 0x2028, 0x2029, 0x202F, 0x205F, 0x3000]

/-- Rust `char::is_whitespace`. -/
def isRustWhitespace (c : Char) : Bool :=
  rustWhitespaceCodes.contains c.toNat

/-- Strip leading and trailing whitespace characters from a character list. -/
def trimChars (l : List Char) : List Char :=
  ((l.dropWhile isRustWhitespace).reverse.dropWhile isRustWhitespace).reverse

/-- Rust `str::trim`. -/
def strTrim (s : String) : String :=
  String.mk (trimChars s.data)

/-- The struct `EmailThreadMeta` (fields `message_id`, `subject`, both
`Option<String>`). -/
structure EmailThreadMeta where
  message_id : Option String
  subject : Option String
deriving DecidableEq

/-- The struct `InboundEmail` (fields `uid`, `sender`, `content`,
`thread`). -/
structure InboundEmail where
  uid : String
  sender : String
  content : String
  thread : EmailThreadMeta
deriving DecidableEq

/-- The struct `EmailChannel`: the channel's configuration. -/
structure EmailChannel where
  imap_host : String
  imap_port : Nat
  imap_login : String
  imap_password : String
  imap_starttls : Bool
  smtp_host : String
  smtp_port : Nat
  smtp_login : String
  smtp_password : String
  smtp_starttls : Bool
  from_address : String
  inbox_folder : String
  poll_interval_secs : Nat
  allowed_senders : List String
deriving DecidableEq

/-- The bus envelope `ChannelMessage` from `channels/traits`, as
constructed by `listen` (fields visible at the construction site). -/
structure ChannelMessage where
  id : String
  sender : String
  content : String
  channel : String
  timestamp : Nat
deriving DecidableEq

/-- `EmailChannel::is_sender_allowed`. -/
def is_sender_allowed (ch : EmailChannel) (sender : String) : Bool :=
  if ch.allowed_senders.any (fun u => u == "*") then
    true
  else
    ch.allowed_senders.any (fun u => eq_ignore_ascii_case u sender)

/-- `EmailChannel::validate_email_identity`. -/
def validate_email_identity (value : String) : Bool :=
  let trimmed := strTrim value
  !trimmed.data.isEmpty
    && trimmed.data.contains '@'
    && !trimmed.data.contains '\n'
    && !trimmed.data.contains '\r'

/-! ## JSON model of `serde_json` for `EmailThreadMeta`

`encode_thread_meta` calls `serde_json::to_string` and
`decode_thread_meta` calls `serde_json::from_str::<EmailThreadMeta>`.
These are modelled by a concrete JSON renderer and parser over
`List Char` that follow `serde_json`'s grammar: whitespace skipping,
string escapes, number lexemes, arrays and objects, and a final
trailing-input check.  Parsed documents are converted to
`EmailThreadMeta` the way `serde`'s derived `Deserialize` does: the
value must be an object, the fields may come in any order, a duplicated
known field is an error, an unknown field is ignored, a missing
`Option` field is `None`, `null` is `None`, and a string is `Some`. -/

/-- JSON documents.  Numbers keep their source lexeme: the channel never
inspects numeric values, only whether a document is a well-formed object
of nulls and strings. -/
inductive Json where
  | null
  | bool (b : Bool)
  | num (lexeme : List Char)
  | str (s : List Char)
  | arr (elems : List Json)
  | obj (fields : List (List Char × Json))

/-- JSON insignificant whitespace (space, tab, line feed, carriage return). -/
def isJsonWs (c : Char) : Bool :=
  (c == ' ') || (c == '\t') || (c == '\n') || (c == '\r')

/-- Skip insignificant whitespace. -/
def skipWs (l : List Char) : List Char :=
  l.dropWhile isJsonWs

/-- Lower-case hexadecimal digit for a value below 16 (as `serde_json`
emits in `\u00XX` escapes). -/
def hexDigitChar (n : Nat) : Char :=
  if n < 10 then Char.ofNat (48 + n) else Char.ofNat (87 + n)

/-- Value of a hexadecimal digit character. -/
def hexVal (c : Char) : Option Nat :=
  if '0' ≤ c ∧ c ≤ '9' then some (c.toNat - 48)
  else if 'a' ≤ c ∧ c ≤ 'f' then some (c.toNat - 87)
  else if 'A' ≤ c ∧ c ≤ 'F' then some (c.toNat - 55)
  else none

/-- `serde_json`'s escaping of one character inside a string literal:
quote and backslash are escaped, the control characters BS, TAB, LF, FF,
CR get their short escapes, any other control character becomes
`\u00XX`, and everything else is emitted verbatim. -/
def escapeChar (c : Char) : List Char :=
  if c = '"' then ['\\', '"']
  else if c = '\\' then ['\\', '\\']
  else if c = Char.ofNat 0x08 then ['\\', 'b']
  else if c = '\t' then ['\\', 't']
  else if c = '\n' then ['\\', 'n']
  else if c = Char.ofNat 0x0C then ['\\', 'f']
  else if c = '\r' then ['\\', 'r']
  else if c.toNat < 0x20 then
    ['\\', 'u', '0', '0', hexDigitChar (c.toNat / 16), hexDigitChar (c.toNat % 16)]
  else [c]

/-- Escape a whole string body. -/
def escapeChars : List Char → List Char
  | [] => []
  | c :: rest => escapeChar c ++ escapeChars rest

/-- Meaning of a single-character escape sequence. -/
def unescapeChar (e : Char) : Option Char :=
  if e = '"' then some '"'
  else if e = '\\' then some '\\'
  else if e = '/' then some '/'
  else if e = 'b' then some (Char.ofNat 0x08)
  else if e = 't' then some '\t'
  else if e = 'n' then some '\n'
  else if e = 'f' then some (Char.ofNat 0x0C)
  else if e = 'r' then some '\r'
  else none

/-- Parse the body of a JSON string literal (the opening quote already
consumed), returning the decoded characters and the input after the
closing quote.  Raw control characters are rejected, `\uXXXX` escapes
are decoded, and (like `serde_json` when targeting a `String`) a
surrogate code unit is rejected. -/
def parseStringBody : List Char → Option (List Char × List Char)
  | [] => none
  | c :: rest =>
    if c = '"' then some ([], rest)
    else if c = '\\' then
      match rest with
      | [] => none
      | e :: rest2 =>
        if e = 'u' then
          match rest2 with
          | h1 :: h2 :: h3 :: h4 :: rest4 =>
            match hexVal h1, hexVal h2, hexVal h3, hexVal h4 with
            | some a, some b, some d, some f =>
              let code := ((a * 16 + b) * 16 + d) * 16 + f
              if code < 0xD800 ∨ 0xE000 ≤ code then
                match parseStringBody rest4 with
                | some (s, r) => some (Char.ofNat code :: s, r)
                | none => none
              else none
            | _, _, _, _ => none
          | _ => none
        else
          match unescapeChar e with
          | some u =>
            match parseStringBody rest2 with
            | some (s, r) => some (u :: s, r)
            | none => none
          | none => none
    else if c.toNat < 0x20 then none
    else
      match parseStringBody rest with
      | some (s, r) => some (c :: s, r)
      | none => none

/-- Parse the integer part of a JSON number (no leading zeros). -/
def parseIntPart : List Char → Option (List Char × List Char)
  | [] => none
  | c :: rest =>
    if c = '0' then
      match rest with
      | d :: _ => if d.isDigit then none else some (['0'], rest)
      | [] => some (['0'], [])
    else if c.isDigit then
      some (c :: rest.takeWhile Char.isDigit, rest.dropWhile Char.isDigit)
    else none

/-- Parse an optional fraction part (`.` followed by one or more digits). -/
def parseFracPart (l : List Char) : Option (List Char × List Char) :=
  match l with
  | c :: rest =>
    if c = '.' then
      match rest.takeWhile Char.isDigit with
      | [] => none
      | ds => some ('.' :: ds, rest.dropWhile Char.isDigit)
    else some ([], l)
  | [] => some ([], [])

/-- Parse an optional exponent part (`e`/`E`, optional sign, digits). -/
def parseExpPart (l : List Char) : Option (List Char × List Char) :=
  match l with
  | c :: rest =>
    if c = 'e' ∨ c = 'E' then
      let (sign, rest2) :=
        match rest with
        | s :: r2 => if s = '+' ∨ s = '-' then ([s], r2) else ([], rest)
        | [] => ([], [])
      match rest2.takeWhile Char.isDigit with
      | [] => none
      | ds => some (c :: sign ++ ds, rest2.dropWhile Char.isDigit)
    else some ([], l)
  | [] => some ([], [])

/-- Parse the unsigned part of a JSON number lexeme: integer part,
optional fraction, optional exponent. -/
def parseNumberCore (l0 : List Char) : Option (List Char × List Char) :=
  match parseIntPart l0 with
  | none => none
  | some (ip, r1) =>
    match parseFracPart r1 with
    | none => none
    | some (fp, r2) =>
      match parseExpPart r2 with
      | none => none
      | some (ep, r3) => some (ip ++ fp ++ ep, r3)

/-- Parse a JSON number lexeme starting at the current position. -/
def parseNumberFrom (l : List Char) : Option (List Char × List Char) :=
  match l with
  | [] => parseNumberCore []
  | c :: rest =>
    if c = '-' then
      match parseNumberCore rest with
      | some (lex, r) => some ('-' :: lex, r)
      | none => none
    else parseNumberCore (c :: rest)

mutual

/-- Parse one JSON value (with a fuel bound on nesting depth). -/
def parseValue : Nat → List Char → Option (Json × List Char)
  | 0, _ => none
  | Nat.succ n, l =>
    match skipWs l with
    | [] => none
    | c :: r =>
      if c = '{' then
        match skipWs r with
        | [] => none
        | d :: r2 =>
          if d = '}' then some (.obj [], r2)
          else
            match parseMembers n (d :: r2) with
            | some (ms, r3) => some (.obj ms, r3)
            | none => none
      else if c = '[' then
        match skipWs r with
        | [] => none
        | d :: r2 =>
          if d = ']' then some (.arr [], r2)
          else
            match parseElems n (d :: r2) with
            | some (es, r3) => some (.arr es, r3)
            | none => none
      else if c = '"' then
        match parseStringBody r with
        | some (s, r2) => some (.str s, r2)
        | none => none
      else if c = 't' then
        match r with
        | 'r' :: 'u' :: 'e' :: r2 => some (.bool true, r2)
        | _ => none
      else if c = 'f' then
        match r with
        | 'a' :: 'l' :: 's' :: 'e' :: r2 => some (.bool false, r2)
        | _ => none
      else if c = 'n' then
        match r with
        | 'u' :: 'l' :: 'l' :: r2 => some (.null, r2)
        | _ => none
      else if c = '-' ∨ c.isDigit then
        match parseNumberFrom (c :: r) with
        | some (lex, r2) => some (.num lex, r2)
        | none => none
      else none

/-- Parse the members of a non-empty JSON object, up to and including
the closing brace. -/
def parseMembers : Nat → List Char → Option (List (List Char × Json) × List Char)
  | 0, _ => none
  | Nat.succ n, l =>
    match skipWs l with
    | [] => none
    | c :: r =>
      if c = '"' then
        match parseStringBody r with
        | some (key, r1) =>
          match skipWs r1 with
          | [] => none
          | d :: r2 =>
            if d = ':' then
              match parseValue n r2 with
              | some (v, r3) =>
                match skipWs r3 with
                | [] => none
                | e :: r4 =>
                  if e = ',' then
                    match parseMembers n r4 with
                    | some (ms, r5) => some ((key, v) :: ms, r5)
                    | none => none
                  else if e = '}' then some ([(key, v)], r4)
                  else none
              | none => none
            else none
        | none => none
      else none

/-- Parse the elements of a non-empty JSON array, up to and including
the closing bracket. -/
def parseElems : Nat → List Char → Option (List Json × List Char)
  | 0, _ => none
  | Nat.succ n, l =>
    match parseValue n l with
    | some (v, r) =>
      match skipWs r with
      | [] => none
      | e :: r2 =>
        if e = ',' then
          match parseElems n r2 with
          | some (es, r3) => some (v :: es, r3)
          | none => none
        else if e = ']' then some ([v], r2)
        else none
    | none => none

end

/-- Parse a complete JSON document: one value, with only whitespace
allowed to follow (the `serde_json` end-of-input check). -/
def parseJsonChars (l : List Char) : Option Json :=
  match parseValue (l.length + 1) l with
  | some (v, rest) => if skipWs rest = [] then some v else none
  | none => none

/-- Key `message_id` of the serialized struct. -/
def midKey : List Char := "message_id".data

/-- Key `subject` of the serialized struct. -/
def subjKey : List Char := "subject".data

/-- Value of a known `Option<String>` field inside a parsed object:
missing or `null` is `None`, a string is `Some`, anything else fails. -/
def jsonFieldValue (fields : List (List Char × Json)) (key : List Char) :
    Option (Option String) :=
  match fields.find? (fun kv => kv.1 == key) with
  | none => some none
  | some (_, Json.null) => some none
  | some (_, Json.str s) => some (some (String.mk s))
  | some _ => none

/-- Number of occurrences of a key among an object's fields. -/
def countKey (fields : List (List Char × Json)) (key : List Char) : Nat :=
  (fields.filter (fun kv => kv.1 == key)).length

/-- `serde`'s derived deserialization of `EmailThreadMeta` from a parsed
JSON document. -/
def metaOfJson : Json → Option EmailThreadMeta
  | Json.obj fields =>
    if countKey fields midKey ≤ 1 ∧ countKey fields subjKey ≤ 1 then
      match jsonFieldValue fields midKey, jsonFieldValue fields subjKey with
      | some m, some s => some ⟨m, s⟩
      | _, _ => none
    else none
  | _ => none

/-- Render an `Option<String>` field value the way `serde_json` does. -/
def renderOptStr : Option String → List Char
  | none => ['n', 'u', 'l', 'l']
  | some s => '"' :: escapeChars s.data ++ ['"']

/-- The JSON document corresponding to an `Option<String>` field value. -/
def jsonOfOptStr : Option String → Json
  | none => Json.null
  | some s => Json.str s.data

/-- `serde_json::to_string` on an `EmailThreadMeta` value: a compact
object with the fields in declaration order. -/
def renderMeta (m : EmailThreadMeta) : List Char :=
  '{' :: '"' :: escapeChars midKey ++ '"' :: ':' :: renderOptStr m.message_id
    ++ ',' :: '"' :: escapeChars subjKey ++ '"' :: ':' :: renderOptStr m.subject
    ++ ['}']

/-- `EmailChannel::encode_thread_meta`. -/
def encode_thread_meta (meta : EmailThreadMeta) : Option String :=
  if meta.message_id = none ∧ meta.subject = none then none
  else some (String.mk (renderMeta meta))

/-- `EmailChannel::decode_thread_meta`. -/
def decode_thread_meta (raw : String) : Option EmailThreadMeta :=
  match parseJsonChars raw.data with
  | some j => metaOfJson j
  | none => none

/-- Rust `str::split_once` on the one-character pattern
`EMAIL_REPLY_META_SEP`. -/
def splitOnceSep : List Char → Option (List Char × List Char)
  | [] => none
  | c :: rest =>
    if c = sepChar then some ([], rest)
    else
      match splitOnceSep rest with
      | some (a, b) => some (c :: a, b)
      | none => none

/-- `EmailChannel::parse_recipient_and_thread_meta`. -/
def parse_recipient_and_thread_meta (recipient : String) :
    String × Option EmailThreadMeta :=
  match splitOnceSep recipient.data with
  | some (email, rawMeta) =>
    match decode_thread_meta (String.mk rawMeta) with
    | some meta => (String.mk email, some meta)
    | none =>
      -- Backward/compat path: payload may be "<uid><SEP><json-meta>".
      match splitOnceSep rawMeta with
      | some (_, jsonMeta) => (String.mk email, decode_thread_meta (String.mk jsonMeta))
      | none => (String.mk email, none)
  | none => (recipient, none)

/-- `EmailChannel::reply_subject`: trim, fall back to the fixed default
on an absent or blank subject, keep a subject already starting
(case-insensitively) with `re:`, otherwise add the `Re: ` marker. -/
def reply_subject (subject : Option String) : String :=
  match subject.map strTrim with
  | none => "ZeroClaw reply"
  | some t =>
    if t = "" then "ZeroClaw reply"
    else if "re:".data.isPrefixOf (t.data.map asciiLowerChar) then t
    else "Re: " ++ t

/-! ## `send`

`send` is modelled up to the point where control passes to the external
`lettre` library: recipient splitting, the two address validations, the
subject, and the threading headers are computed by this repository's
code; `Mailbox` parsing, multipart construction, markdown rendering
(`pulldown_cmark`) and SMTP transmission are external and are elided
behind the `composed` constructor. -/

/-- Outcome of the modelled part of `EmailChannel::send`.  The two
`bail!` validation errors happen strictly before any SMTP activity;
`composed` carries what the code has computed when it first calls into
`lettre`. -/
inductive SendStage where
  | invalidFrom
  | invalidRecipient
  | composed (toAddr : String) (subject : String) (replyRef : Option String)
      (plainBody : String)
deriving DecidableEq

/-- The pure prefix of `EmailChannel::send`. -/
def send_compose (ch : EmailChannel) (message recipient : String) : SendStage :=
  let parsed := parse_recipient_and_thread_meta recipient
  let recipientEmail := parsed.1
  let threadMeta := parsed.2
  if !validate_email_identity ch.from_address then .invalidFrom
  else if !validate_email_identity recipientEmail then .invalidRecipient
  else
    let subject := reply_subject (threadMeta.bind (fun m => m.subject))
    let replyRef :=
      (threadMeta.bind (fun m => m.message_id)).map strTrim
        |>.filter (fun m => m ≠ "")
    .composed recipientEmail subject replyRef message

/-! ## The listen pipeline -/

/-- The dedup id computed at the top of `listen`'s per-message loop:
`uid`, extended with `SEP ++ encode(thread)` when the encoder returns
metadata. -/
def dedupId (i : InboundEmail) : String :=
  match encode_thread_meta i.thread with
  | some meta => i.uid ++ EMAIL_REPLY_META_SEP ++ meta
  | none => i.uid

/-- The `ChannelMessage` built by `listen` for one inbound email.
`now` stands for the `SystemTime::now` unix timestamp. -/
def mkChannelMessage (i : InboundEmail) (now : Nat) : ChannelMessage :=
  { id := dedupId i
    sender := i.sender
    content := i.content
    channel := "email"
    timestamp := now }

/-- The body of `listen`'s `for inbound in messages` loop: dedup against
the seen-id set, insert, authorize, and hand the message to the bus.
`bus` models `tx.send`: `false` means the receiving side is closed, in
which case `listen` returns immediately.  The result is the new seen-id
set, the messages the bus accepted, and whether the loop is still
running (`false` when the bus closed). -/
def deliverAll (ch : EmailChannel) (now : Nat) (bus : ChannelMessage → Bool) :
    List String → List InboundEmail → List String × List ChannelMessage × Bool
  | seen, [] => (seen, [], true)
  | seen, i :: rest =>
    let id := dedupId i
    if seen.contains id then deliverAll ch now bus seen rest
    else
      let seen2 := id :: seen
      if is_sender_allowed ch i.sender then
        let msg := mkChannelMessage i now
        if bus msg then
          let r := deliverAll ch now bus seen2 rest
          (r.1, msg :: r.2.1, r.2.2)
        else (seen2, [], false)
      else deliverAll ch now bus seen2 rest

/-- The effective poll interval `Duration::from_secs(poll_interval_secs.max(5))`. -/
def poll_every (ch : EmailChannel) : Nat :=
  max ch.poll_interval_secs 5

/-- How one iteration of `listen`'s `loop` ends. -/
inductive LoopStep where
  | stop
  | sleepThenContinue (secs : Nat)
deriving DecidableEq

/-- One iteration of `listen`'s `loop`, given the outcome of the
offloaded `poll_unseen_blocking` call (an `Except.error` also covers a
`spawn_blocking` join error: both arms only log).  On success the
messages are processed; on error nothing is processed; in both cases the
loop sleeps the full interval unless the bus closed, which makes
`listen` return. -/
def listenCycle (ch : EmailChannel) (now : Nat) (bus : ChannelMessage → Bool)
    (seen : List String) (pollResult : Except String (List InboundEmail)) :
    List String × List ChannelMessage × LoopStep :=
  match pollResult with
  | .ok messages =>
    let r := deliverAll ch now bus seen messages
    (r.1, r.2.1, if r.2.2 then .sleepThenContinue (poll_every ch) else .stop)
  | .error _ => (seen, [], .sleepThenContinue (poll_every ch))

/-! ## The blocking IMAP poll

TLS, the IMAP session and the `mailparse` MIME functions are external
libraries; they are modelled as an oracle record.  `RawEmail` stands for
the fetched RFC822 byte body. -/

/-- Raw message bytes as handed back by the IMAP fetch. -/
def RawEmail : Type := List Nat

/-- One element of the collection returned by `session.fetch`; `body`
is `fetch.body()`. -/
structure FetchItem where
  body : Option RawEmail

/-- Oracle for the external libraries used by `poll_unseen_blocking` and
`check_imap_connectivity`: the TLS builder, the IMAP protocol calls, and
the `mailparse` extraction functions (`parse_mail` success,
`parse_sender_from_headers`, `parse_text_body`, and the two
`get_first_value` header reads). -/
structure ImapEnv where
  tlsBuild : Except String Unit
  connect : Except String Unit
  login : Except String Unit
  selectFolder : Except String Unit
  search : Except String (List Nat)
  fetch : Nat → Except String (List FetchItem)
  parseOk : RawEmail → Bool
  senderOf : RawEmail → Option String
  bodyOf : RawEmail → Option String
  messageIdOf : RawEmail → Option String
  subjectOf : RawEmail → Option String

/-- The per-fetch-item extraction in `poll_unseen_blocking`'s inner
loop: a missing body, an unparsable message, a missing sender or a
missing text body each skip the single item. -/
def extractInbound (env : ImapEnv) (uid : Nat) (item : FetchItem) :
    Option InboundEmail :=
  match item.body with
  | none => none
  | some raw =>
    if env.parseOk raw then
      match env.senderOf raw with
      | none => none
      | some sender =>
        match env.bodyOf raw with
        | none => none
        | some content =>
          some { uid := toString uid
                 sender := sender
                 content := content
                 thread := { message_id := env.messageIdOf raw
                             subject := env.subjectOf raw } }
    else none

/-- The `for uid in unseen` fetch loop: a fetch error aborts the whole
cycle through `?`, discarding everything accumulated so far.  (The
`store "+FLAGS"` and `logout` results are explicitly ignored by the
source.) -/
def fetchFold (env : ImapEnv) : List Nat → List InboundEmail →
    Except String (List InboundEmail)
  | [], out => .ok out
  | uid :: rest, out =>
    match env.fetch uid with
    | .error e => .error e
    | .ok fetches =>
      fetchFold env rest (out ++ fetches.filterMap (extractInbound env uid))

/-- `EmailChannel::poll_unseen_blocking`. -/
def poll_unseen_blocking (ch : EmailChannel) (env : ImapEnv) :
    Except String (List InboundEmail) :=
  if !ch.imap_starttls then
    .error "imap_starttls=false is not supported in this build"
  else
    match env.tlsBuild with
    | .error e => .error e
    | .ok _ =>
      match env.connect with
      | .error e => .error e
      | .ok _ =>
        match env.login with
        | .error e => .error e
        | .ok _ =>
          match env.selectFolder with
          | .error e => .error e
          | .ok _ =>
            match env.search with
            | .error e => .error e
            | .ok unseen => fetchFold env unseen []

/-- `EmailChannel::check_imap_connectivity`: the same starttls guard,
TLS build, connect, login and select, collapsed to a boolean (a
`spawn_blocking` join failure would also yield `false`). -/
def check_imap_connectivity (ch : EmailChannel) (env : ImapEnv) : Bool :=
  if !ch.imap_starttls then false
  else
    match env.tlsBuild with
    | .error _ => false
    | .ok _ =>
      match env.connect with
      | .error _ => false
      | .ok _ =>
        match env.login with
        | .error _ => false
        | .ok _ =>
          match env.selectFolder with
          | .error _ => false
          | .ok _ => true

/-- `EmailChannel::health_check`: from-address validity, IMAP
connectivity, SMTP transport construction, SMTP connection test
(`unwrap_or(false)`).  The two SMTP steps are external (`lettre`) and
enter as oracle arguments. -/
def health_check (ch : EmailChannel) (env : ImapEnv)
    (smtpBuild : Except String Unit) (smtpTest : Except String Bool) : Bool :=
  if !validate_email_identity ch.from_address then false
  else if !check_imap_connectivity ch env then false
  else
    match smtpBuild with
    | .error _ => false
    | .ok _ =>
      match smtpTest with
      | .ok b => b
      | .error _ => false

/-- The `EmailChannel` built by the repository's test helper
`make_channel`. -/
def make_channel (allowed_senders : List String) : EmailChannel :=
  { imap_host := "imap.example.com"
    imap_port := 993
    imap_login := "imap-user"
    imap_password := "imap-pass"
    imap_starttls := true
    smtp_host := "smtp.example.com"
    smtp_port := 587
    smtp_login := "smtp-user"
    smtp_password := "smtp-pass"
    smtp_starttls := true
    from_address := "bot@example.com"
    inbox_folder := "INBOX"
    poll_interval_secs := 10
    allowed_senders := allowed_senders }

/-! ## Helper lemmas -/

theorem list_contains_iff_mem (l : List String) (s : String) :
    l.contains s = true ↔ s ∈ l := by
  simp [List.contains, List.elem_iff]

theorem deliverAll_seen_mono (ch : EmailChannel) (now : Nat)
    (bus : ChannelMessage → Bool) (id : String) :
    ∀ (msgs : List InboundEmail) (seen : List String), id ∈ seen →
      id ∈ (deliverAll ch now bus seen msgs).1 := by
  intro msgs
  induction msgs with
  | nil => intro seen h; simpa [deliverAll] using h
  | cons i rest ih =>
    intro seen h
    simp only [deliverAll]
    split
    · exact ih seen h
    · split
      · split
        · exact ih (dedupId i :: seen) (List.mem_cons_of_mem _ h)
        · exact List.mem_cons_of_mem _ h
      · exact ih (dedupId i :: seen) (List.mem_cons_of_mem _ h)

theorem deliverAll_no_reemit (ch : EmailChannel) (now : Nat)
    (bus : ChannelMessage → Bool) (id : String) :
    ∀ (msgs : List InboundEmail) (seen : List String), id ∈ seen →
      ∀ m ∈ (deliverAll ch now bus seen msgs).2.1, m.id ≠ id := by
  intro msgs
  induction msgs with
  | nil => intro seen _ m hm; simp [deliverAll] at hm
  | cons i rest ih =>
    intro seen h m hm
    simp only [deliverAll] at hm
    by_cases hc : seen.contains (dedupId i) = true
    · rw [if_pos hc] at hm
      exact ih seen h m hm
    · rw [if_neg hc] at hm
      have hne : dedupId i ≠ id := by
        intro he
        exact hc ((list_contains_iff_mem seen (dedupId i)).mpr (he ▸ h))
      split at hm
      · split at hm
        · rw [List.mem_cons] at hm
          rcases hm with hm | hm
          · rw [hm]; exact hne
          · exact ih (dedupId i :: seen) (List.mem_cons_of_mem _ h) m hm
        · simp at hm
      · exact ih (dedupId i :: seen) (List.mem_cons_of_mem _ h) m hm

/-! ## Claims -/

/-- C7: `is_sender_allowed` returns true if the allow-list contains the
wildcard token `*`; otherwise true exactly when some entry equals the
sender under ASCII case-insensitive comparison; an empty allow-list
denies every sender. -/
theorem spec_c7_allowlist_policy (ch : EmailChannel) (sender : String) :
    (is_sender_allowed ch sender = true ↔
      "*" ∈ ch.allowed_senders ∨
        ∃ u ∈ ch.allowed_senders,
          u.data.map asciiLowerChar = sender.data.map asciiLowerChar) ∧
    (ch.allowed_senders = [] → is_sender_allowed ch sender = false) := by
  constructor
  · by_cases hw : ch.allowed_senders.any (fun u => u == "*") = true
    · have hmem : "*" ∈ ch.allowed_senders := by
        rcases List.any_eq_true.mp hw with ⟨u, hu, he⟩
        exact (eq_of_beq he) ▸ hu
      simp [is_sender_allowed, hw, hmem]
    · have hnmem : "*" ∉ ch.allowed_senders := by
        intro hmem
        exact hw (List.any_eq_true.mpr ⟨"*", hmem, by simp⟩)
      simp only [is_sender_allowed, hw, Bool.false_eq_true, if_false]
      rw [List.any_eq_true]
      constructor
      · rintro ⟨u, hu, he⟩
        exact Or.inr ⟨u, hu, by simpa [eq_ignore_ascii_case] using he⟩
      · rintro (h | ⟨u, hu, he⟩)
        · exact absurd h hnmem
        · exact ⟨u, hu, by simpa [eq_ignore_ascii_case] using he⟩
  · intro h
    simp [is_sender_allowed, h]

/-- Witness for C7: the empty allow-list rejects a concrete sender. -/
theorem spec_c7_allowlist_policy_witness :
    is_sender_allowed (make_channel []) "alice@example.com" = false :=
  (spec_c7_allowlist_policy (make_channel []) "alice@example.com").2 rfl

/-- C8: the sleep between poll cycles is the maximum of the configured
interval and 5 seconds, hence at least 5 seconds; every loop iteration
either stops (bus closed) or sleeps exactly that duration. -/
theorem spec_c8_poll_interval_floor (ch : EmailChannel) (now : Nat)
    (bus : ChannelMessage → Bool) (seen : List String)
    (pr : Except String (List InboundEmail)) :
    5 ≤ poll_every ch ∧
    (5 ≤ ch.poll_interval_secs → poll_every ch = ch.poll_interval_secs) ∧
    (ch.poll_interval_secs < 5 → poll_every ch = 5) ∧
    ((listenCycle ch now bus seen pr).2.2 = LoopStep.stop ∨
      (listenCycle ch now bus seen pr).2.2 =
        LoopStep.sleepThenContinue (poll_every ch)) := by
  refine ⟨Nat.le_max_right _ _, fun h => Nat.max_eq_left h,
    fun h => Nat.max_eq_right (Nat.le_of_lt h), ?_⟩
  cases pr with
  | error e => right; rfl
  | ok messages =>
    by_cases hr : (deliverAll ch now bus seen messages).2.2 = true
    · right; simp [listenCycle, hr]
    · left; simp [listenCycle, hr]

/-- Witness for C8: a configured interval of 10 seconds is used as-is,
and one below the floor is raised to 5. -/
theorem spec_c8_poll_interval_floor_witness :
    poll_every (make_channel []) = (make_channel []).poll_interval_secs ∧
    poll_every { make_channel [] with poll_interval_secs := 1 } = 5 :=
  ⟨(spec_c8_poll_interval_floor (make_channel []) 0 (fun _ => true) []
      (.ok [])).2.1 (by decide),
   (spec_c8_poll_interval_floor { make_channel [] with poll_interval_secs := 1 } 0
      (fun _ => true) [] (.ok [])).2.2.1 (by decide)⟩

/-- C9: in `listen`, the dedup id is inserted into the seen-id set
before the authorization check, so a message dropped as unauthorized is
still recorded as seen, nothing with its id is emitted, and no later
processing from the resulting set can ever emit that id. -/
theorem spec_c9_unauthorized_still_seen (ch : EmailChannel) (now : Nat)
    (bus : ChannelMessage → Bool) (seen : List String) (i : InboundEmail)
    (rest : List InboundEmail)
    (hna : is_sender_allowed ch i.sender = false) :
    dedupId i ∈ (deliverAll ch now bus seen (i :: rest)).1 ∧
    (∀ m ∈ (deliverAll ch now bus seen (i :: rest)).2.1, m.id ≠ dedupId i) ∧
    ∀ (now2 : Nat) (bus2 : ChannelMessage → Bool) (later : List InboundEmail),
      ∀ m ∈ (deliverAll ch now2 bus2 (deliverAll ch now bus seen (i :: rest)).1
          later).2.1,
        m.id ≠ dedupId i := by
  have hstep : (deliverAll ch now bus seen (i :: rest) =
      deliverAll ch now bus seen rest ∧ dedupId i ∈ seen) ∨
      deliverAll ch now bus seen (i :: rest) =
        deliverAll ch now bus (dedupId i :: seen) rest := by
    by_cases hc : seen.contains (dedupId i) = true
    · refine Or.inl ⟨?_, (list_contains_iff_mem seen (dedupId i)).mp hc⟩
      simp only [deliverAll]
      rw [if_pos hc]
    · right
      simp only [deliverAll]
      rw [if_neg hc, if_neg (by simp [hna])]
  rcases hstep with ⟨heq, hmem⟩ | heq
  all_goals rw [heq]
  · exact ⟨deliverAll_seen_mono ch now bus _ rest seen hmem,
      deliverAll_no_reemit ch now bus _ rest seen hmem,
      fun now2 bus2 later =>
        deliverAll_no_reemit ch now2 bus2 _ later _
          (deliverAll_seen_mono ch now bus _ rest seen hmem)⟩
  · have hmem : dedupId i ∈ dedupId i :: seen := List.mem_cons_self _ _
    exact ⟨deliverAll_seen_mono ch now bus _ rest _ hmem,
      deliverAll_no_reemit ch now bus _ rest _ hmem,
      fun now2 bus2 later =>
        deliverAll_no_reemit ch now2 bus2 _ later _
          (deliverAll_seen_mono ch now bus _ rest _ hmem)⟩

/-- Witness for C9: a concrete unauthorized message is recorded in the
seen-id set. -/
theorem spec_c9_unauthorized_still_seen_witness :
    dedupId ⟨"7", "eve@example.com", "hi", ⟨none, none⟩⟩ ∈
      (deliverAll (make_channel ["alice@example.com"]) 0 (fun _ => true) []
        [⟨"7", "eve@example.com", "hi", ⟨none, none⟩⟩]).1 :=
  (spec_c9_unauthorized_still_seen (make_channel ["alice@example.com"]) 0
    (fun _ => true) [] ⟨"7", "eve@example.com", "hi", ⟨none, none⟩⟩ []
    (by decide)).1

/-- C10: with `imap_starttls = false` every poll cycle fails before any
connection attempt, `listen` emits nothing in any cycle, and
`health_check` is false regardless of server reachability. -/
theorem spec_c10_starttls_required (ch : EmailChannel)
    (h : ch.imap_starttls = false) :
    (∀ env : ImapEnv, poll_unseen_blocking ch env =
      .error "imap_starttls=false is not supported in this build") ∧
    (∀ (env : ImapEnv) (now : Nat) (bus : ChannelMessage → Bool)
        (seen : List String),
      listenCycle ch now bus seen (poll_unseen_blocking ch env) =
        (seen, [], LoopStep.sleepThenContinue (poll_every ch))) ∧
    (∀ (env : ImapEnv) (smtpBuild : Except String Unit)
        (smtpTest : Except String Bool),
      health_check ch env smtpBuild smtpTest = false) := by
  have hpoll : ∀ env : ImapEnv, poll_unseen_blocking ch env =
      .error "imap_starttls=false is not supported in this build" := by
    intro env
    simp [poll_unseen_blocking, h]
  refine ⟨hpoll, ?_, ?_⟩
  · intro env now bus seen
    rw [hpoll env]
    rfl
  · intro env smtpBuild smtpTest
    have hconn : check_imap_connectivity ch env = false := by
      simp [check_imap_connectivity, h]
    cases hv : validate_email_identity ch.from_address <;>
      simp [health_check, hv, hconn]

/-- Witness for C10: a concrete channel with the flag off fails its
poll and its health check even against a fully healthy server oracle. -/
theorem spec_c10_starttls_required_witness :
    health_check { make_channel [] with imap_starttls := false }
      ⟨.ok (), .ok (), .ok (), .ok (), .ok [], fun _ => .ok [], fun _ => true,
        fun _ => some "alice@example.com", fun _ => some "body",
        fun _ => none, fun _ => none⟩
      (.ok ()) (.ok true) = false :=
  (spec_c10_starttls_required { make_channel [] with imap_starttls := false }
    rfl).2.2 _ (.ok ()) (.ok true)

/-- The fetch loop aborts with an error whenever the fetch of any uid
in the searched list fails, discarding everything accumulated so far
(earlier fetches may have succeeded arbitrarily). -/
theorem fetchFold_error_exists (env : ImapEnv) :
    ∀ (uids : List Nat) (acc : List InboundEmail) (u : Nat) (e : String),
      u ∈ uids → env.fetch u = .error e →
      ∃ e2, fetchFold env uids acc = .error e2 := by
  intro uids
  induction uids with
  | nil => intro acc u e hu _; simp at hu
  | cons v rest ih =>
    intro acc u e hu hfe
    simp only [fetchFold]
    cases hv : env.fetch v with
    | error e2 => exact ⟨e2, rfl⟩
    | ok items =>
      rcases List.mem_cons.mp hu with rfl | hu2
      · rw [hv] at hfe
        exact absurd hfe (by simp)
      · exact ih _ u e hu2 hfe

/-- C4: if any step of the cycle from TLS/connect through login, folder
select, search, or any single fetch fails — in particular a fetch
failing after earlier uids were fetched successfully — the whole cycle
returns an error, nothing reaches the bus, the loop does not stop, and
it sleeps the full interval. -/
theorem spec_c4_cycle_atomicity (ch : EmailChannel) (env : ImapEnv)
    (hs : ch.imap_starttls = true)
    (hfail :
      (∃ e, env.tlsBuild = .error e) ∨
      (∃ e, env.connect = .error e) ∨
      (∃ e, env.login = .error e) ∨
      (∃ e, env.selectFolder = .error e) ∨
      (∃ e, env.search = .error e) ∨
      (∃ uids u e, env.search = .ok uids ∧ u ∈ uids ∧
        env.fetch u = .error e)) :
    (∃ e, poll_unseen_blocking ch env = .error e) ∧
    ∀ (now : Nat) (bus : ChannelMessage → Bool) (seen : List String),
      listenCycle ch now bus seen (poll_unseen_blocking ch env) =
        (seen, [], LoopStep.sleepThenContinue (poll_every ch)) := by
  have hpoll : ∃ e, poll_unseen_blocking ch env = .error e := by
    simp only [poll_unseen_blocking, hs, Bool.not_true, Bool.false_eq_true,
      if_false]
    cases htls : env.tlsBuild with
    | error e2 => exact ⟨e2, rfl⟩
    | ok _ =>
      cases hcon : env.connect with
      | error e2 => exact ⟨e2, rfl⟩
      | ok _ =>
        cases hlog : env.login with
        | error e2 => exact ⟨e2, rfl⟩
        | ok _ =>
          cases hsel : env.selectFolder with
          | error e2 => exact ⟨e2, rfl⟩
          | ok _ =>
            cases hsea : env.search with
            | error e2 => exact ⟨e2, rfl⟩
            | ok uids2 =>
              rcases hfail with ⟨e, he⟩ | ⟨e, he⟩ | ⟨e, he⟩ | ⟨e, he⟩ |
                ⟨e, he⟩ | ⟨uids, u, e, hse, hu, hfe⟩
              · rw [he] at htls
                exact absurd htls (by simp)
              · rw [he] at hcon
                exact absurd hcon (by simp)
              · rw [he] at hlog
                exact absurd hlog (by simp)
              · rw [he] at hsel
                exact absurd hsel (by simp)
              · rw [he] at hsea
                exact absurd hsea (by simp)
              · rw [hse] at hsea
                injection hsea with huids
                subst huids
                exact fetchFold_error_exists env uids [] u e hu hfe
  refine ⟨hpoll, ?_⟩
  obtain ⟨e, he⟩ := hpoll
  intro now bus seen
  rw [he]
  rfl

/-- Witness for C4: a concrete cycle whose second fetch fails after the
first fetch succeeded produces an error and an empty, sleeping cycle. -/
theorem spec_c4_cycle_atomicity_witness :
    listenCycle (make_channel ["*"]) 0 (fun _ => true) []
      (poll_unseen_blocking (make_channel ["*"])
        ⟨.ok (), .ok (), .ok (), .ok (), .ok [1, 2],
          fun v => if v = 1 then .ok [⟨some [65]⟩] else .error "fetch failed",
          fun _ => true, fun _ => some "alice@example.com",
          fun _ => some "body", fun _ => none, fun _ => none⟩) =
      ([], [], LoopStep.sleepThenContinue (poll_every (make_channel ["*"]))) :=
  (spec_c4_cycle_atomicity (make_channel ["*"])
    ⟨.ok (), .ok (), .ok (), .ok (), .ok [1, 2],
      fun v => if v = 1 then .ok [⟨some [65]⟩] else .error "fetch failed",
      fun _ => true, fun _ => some "alice@example.com", fun _ => some "body",
      fun _ => none, fun _ => none⟩
    rfl
    (Or.inr (Or.inr (Or.inr (Or.inr (Or.inr
      ⟨[1, 2], 2, "fetch failed", rfl, by decide, by simp⟩)))))).2
    0 (fun _ => true) []

/-- C1: the dedup id is the uid alone when neither thread field is set
and `uid ++ SEP ++ encode(thread)` when at least one is set; an
otherwise-deliverable message followed by a second delivery of the same
`(uid, thread)` pair yields exactly one message to the bus — in the same
cycle and in any later cycle the duplicate is silently skipped. -/
theorem spec_c1_dedup_id_and_single_delivery :
    (∀ i : InboundEmail,
      (i.thread.message_id = none ∧ i.thread.subject = none →
        dedupId i = i.uid) ∧
      (i.thread.message_id ≠ none ∨ i.thread.subject ≠ none →
        ∃ e, encode_thread_meta i.thread = some e ∧
          dedupId i = i.uid ++ EMAIL_REPLY_META_SEP ++ e)) ∧
    (∀ (ch : EmailChannel) (now now2 : Nat)
        (bus bus2 : ChannelMessage → Bool) (seen : List String)
        (i1 i2 : InboundEmail),
      i2.uid = i1.uid → i2.thread = i1.thread → dedupId i1 ∉ seen →
      is_sender_allowed ch i1.sender = true → (∀ m, bus m = true) →
      (deliverAll ch now bus seen [i1, i2]).2.1 =
        [mkChannelMessage i1 now] ∧
      (deliverAll ch now2 bus2 (deliverAll ch now bus seen [i1, i2]).1
        [i2]).2.1 = []) := by
  constructor
  · intro i
    constructor
    · intro ⟨h1, h2⟩
      simp [dedupId, encode_thread_meta, h1, h2]
    · intro h
      have hne : ¬(i.thread.message_id = none ∧ i.thread.subject = none) := by
        tauto
      refine ⟨String.mk (renderMeta i.thread), ?_, ?_⟩
      · simp [encode_thread_meta, hne]
      · simp [dedupId, encode_thread_meta, hne]
  · intro ch now now2 bus bus2 seen i1 i2 hu ht hnew hok hbus
    have hid : dedupId i2 = dedupId i1 := by
      simp [dedupId, hu, ht]
    have hc : seen.contains (dedupId i1) = false := by
      rw [Bool.eq_false_iff]
      intro hcc
      exact hnew ((list_contains_iff_mem seen (dedupId i1)).mp hcc)
    have hc2 : (dedupId i1 :: seen).contains (dedupId i2) = true := by
      rw [list_contains_iff_mem, hid]
      exact List.mem_cons_self _ _
    have hD : deliverAll ch now bus seen [i1, i2] =
        (dedupId i1 :: seen, [mkChannelMessage i1 now], true) := by
      simp only [deliverAll]
      rw [if_neg (Bool.eq_false_iff.mp hc), if_pos hok, if_pos (hbus _),
        if_pos hc2]
    refine ⟨by rw [hD], ?_⟩
    rw [hD]
    simp only [deliverAll]
    rw [if_pos hc2]

/-- Witness for C1: a concrete duplicated message is delivered exactly
once. -/
theorem spec_c1_dedup_id_and_single_delivery_witness :
    (deliverAll (make_channel ["*"]) 0 (fun _ => true) []
      [⟨"3", "alice@example.com", "hi", ⟨some "<m1>", some "Subj"⟩⟩,
       ⟨"3", "alice@example.com", "hi", ⟨some "<m1>", some "Subj"⟩⟩]).2.1 =
      [mkChannelMessage
        ⟨"3", "alice@example.com", "hi", ⟨some "<m1>", some "Subj"⟩⟩ 0] :=
  (spec_c1_dedup_id_and_single_delivery.2 (make_channel ["*"]) 0 1
    (fun _ => true) (fun _ => true) []
    ⟨"3", "alice@example.com", "hi", ⟨some "<m1>", some "Subj"⟩⟩
    ⟨"3", "alice@example.com", "hi", ⟨some "<m1>", some "Subj"⟩⟩
    rfl rfl (by simp) (by decide) (fun _ => rfl)).1

/-- Counterexample for C5: `"Re: Hello "` already starts
case-insensitively with `re:`, so the claim requires it back unchanged,
but `reply_subject` returns the trimmed `"Re: Hello"`. -/
theorem spec_c5_counterexample :
    "re:".data.isPrefixOf ("Re: Hello ".data.map asciiLowerChar) = true ∧
    reply_subject (some "Re: Hello ") ≠ "Re: Hello " := by
  decide

/-- C5 (amended): `reply_subject` trims the subject first; it returns
the fixed default when the subject is absent or blank after trimming,
the trimmed subject unchanged when that starts case-insensitively with
`re:`, and otherwise `"Re: "` prepended to the trimmed subject. -/
theorem spec_c5_reply_subject_trimmed (s : String) :
    reply_subject none = "ZeroClaw reply" ∧
    (strTrim s = "" → reply_subject (some s) = "ZeroClaw reply") ∧
    (strTrim s ≠ "" →
      (∃ r, (strTrim s).data.map asciiLowerChar = 'r' :: 'e' :: ':' :: r) →
      reply_subject (some s) = strTrim s) ∧
    (strTrim s ≠ "" →
      (¬∃ r, (strTrim s).data.map asciiLowerChar = 'r' :: 'e' :: ':' :: r) →
      reply_subject (some s) = "Re: " ++ strTrim s) := by
  have hiff : "re:".data.isPrefixOf ((strTrim s).data.map asciiLowerChar) = true ↔
      ∃ r, (strTrim s).data.map asciiLowerChar = 'r' :: 'e' :: ':' :: r := by
    rw [List.isPrefixOf_iff_prefix]
    constructor
    · rintro ⟨t, htl⟩
      exact ⟨t, htl.symm⟩
    · rintro ⟨r, hr⟩
      exact ⟨r, hr.symm⟩
  refine ⟨rfl, ?_, ?_, ?_⟩
  · intro h
    simp [reply_subject, h]
  · intro h hre
    simp [reply_subject, h, hiff.mpr hre]
  · intro h hre
    have : "re:".data.isPrefixOf ((strTrim s).data.map asciiLowerChar) = false := by
      rw [Bool.eq_false_iff]
      intro hc
      exact hre (hiff.mp hc)
    simp [reply_subject, h, this]

/-- Witness for C5 (amended): `"Re: Hello"` is kept as-is, `"Hello"`
gets the marker. -/
theorem spec_c5_reply_subject_trimmed_witness :
    reply_subject (some "Re: Hello") = strTrim "Re: Hello" ∧
    reply_subject (some "   ") = "ZeroClaw reply" :=
  ⟨(spec_c5_reply_subject_trimmed "Re: Hello").2.2.1 (by decide)
      ⟨" hello".data, by decide⟩,
   (spec_c5_reply_subject_trimmed "   ").2.1 (by decide)⟩

/-- Counterexample for C6: `"a@b\n"` contains a line feed, so the claim
requires it to be rejected, but `validate_email_identity` trims first
and accepts it. -/
theorem spec_c6_counterexample :
    "a@b\n".data.contains '\n' = true ∧
    validate_email_identity "a@b\n" = true := by
  decide

/-- C6 (amended): `validate_email_identity` accepts exactly the strings
whose trimmed form is non-empty, contains `@`, and contains no carriage
return or line feed; and `send` fails before any SMTP activity whenever
the configured from-address or the split-off target address fails this
check. -/
theorem spec_c6_validation_trimmed (v : String) (ch : EmailChannel)
    (message recipient : String) :
    (validate_email_identity v = true ↔
      (strTrim v).data ≠ [] ∧ '@' ∈ (strTrim v).data ∧
        '\n' ∉ (strTrim v).data ∧ '\r' ∉ (strTrim v).data) ∧
    (validate_email_identity ch.from_address = false →
      send_compose ch message recipient = SendStage.invalidFrom) ∧
    (validate_email_identity ch.from_address = true →
      validate_email_identity (parse_recipient_and_thread_meta recipient).1 =
        false →
      send_compose ch message recipient = SendStage.invalidRecipient) := by
  refine ⟨?_, ?_, ?_⟩
  · simp [validate_email_identity, List.contains, List.elem_iff,
      List.isEmpty_iff, and_assoc]
  · intro h
    simp [send_compose, h]
  · intro h1 h2
    simp [send_compose, h1, h2]

/-- Witness for C6 (amended): a from-address without `@` makes a
concrete `send` fail before SMTP. -/
theorem spec_c6_validation_trimmed_witness :
    send_compose { make_channel [] with from_address := "botexample.com" }
      "hello" "alice@example.com" = SendStage.invalidFrom :=
  (spec_c6_validation_trimmed "x"
    { make_channel [] with from_address := "botexample.com" }
    "hello" "alice@example.com").2.1 (by decide)


theorem hexVal_hexDigitChar (n : Nat) (h : n < 16) :
    hexVal (hexDigitChar n) = some n := by
  interval_cases n <;> decide

theorem psb_quote (r : List Char) : parseStringBody ('"' :: r) = some ([], r) := by
  rw [parseStringBody.eq_def]
  simp

theorem psb_esc (e u : Char) (r s r2 : List Char) (hne : e ≠ 'u')
    (he : unescapeChar e = some u) (hr : parseStringBody r = some (s, r2)) :
    parseStringBody ('\\' :: e :: r) = some (u :: s, r2) := by
  rw [parseStringBody.eq_def]
  simp [hne, he, hr]

theorem psb_u00 (hi lo : Nat) (hhi : hi < 16) (hlo : lo < 16)
    (hv : hi * 16 + lo < 0x20) (r s r2 : List Char)
    (hr : parseStringBody r = some (s, r2)) :
    parseStringBody
        ('\\' :: 'u' :: '0' :: '0' :: hexDigitChar hi :: hexDigitChar lo :: r) =
      some (Char.ofNat (hi * 16 + lo) :: s, r2) := by
  have h0 : hexVal '0' = some 0 := by decide
  rw [parseStringBody.eq_def]
  simp only [h0, hexVal_hexDigitChar hi hhi, hexVal_hexDigitChar lo hlo, hr]
  norm_num
  rw [if_pos (Or.inl (by omega)), if_neg (by decide)]

theorem psb_plain (c : Char) (hq : c ≠ '"') (hb : c ≠ '\\')
    (hc : ¬c.toNat < 0x20) (r s r2 : List Char)
    (hr : parseStringBody r = some (s, r2)) :
    parseStringBody (c :: r) = some (c :: s, r2) := by
  rw [parseStringBody.eq_def]
  simp [hq, hb, hc, hr]



theorem parseStringBody_escapeChars (s : List Char) :
    ∀ rest : List Char,
      parseStringBody (escapeChars s ++ '"' :: rest) = some (s, rest) := by
  induction s with
  | nil => intro rest; exact psb_quote rest
  | cons c cs ih =>
    intro rest
    by_cases h1 : c = '"'
    · subst h1
      have : escapeChar '"' = ['\\', '"'] := by decide
      simp only [escapeChars, this, List.cons_append, List.nil_append]
      exact psb_esc '"' '"' _ cs rest (by decide) (by decide) (ih rest)
    by_cases h2 : c = '\\'
    · subst h2
      have : escapeChar '\\' = ['\\', '\\'] := by decide
      simp only [escapeChars, this, List.cons_append, List.nil_append]
      exact psb_esc '\\' '\\' _ cs rest (by decide) (by decide) (ih rest)
    by_cases h3 : c = Char.ofNat 0x08
    · subst h3
      have : escapeChar (Char.ofNat 0x08) = ['\\', 'b'] := by decide
      simp only [escapeChars, this, List.cons_append, List.nil_append]
      exact psb_esc 'b' _ _ cs rest (by decide) (by decide) (ih rest)
    by_cases h4 : c = '\t'
    · subst h4
      have : escapeChar '\t' = ['\\', 't'] := by decide
      simp only [escapeChars, this, List.cons_append, List.nil_append]
      exact psb_esc 't' _ _ cs rest (by decide) (by decide) (ih rest)
    by_cases h5 : c = '\n'
    · subst h5
      have : escapeChar '\n' = ['\\', 'n'] := by decide
      simp only [escapeChars, this, List.cons_append, List.nil_append]
      exact psb_esc 'n' _ _ cs rest (by decide) (by decide) (ih rest)
    by_cases h6 : c = Char.ofNat 0x0C
    · subst h6
      have : escapeChar (Char.ofNat 0x0C) = ['\\', 'f'] := by decide
      simp only [escapeChars, this, List.cons_append, List.nil_append]
      exact psb_esc 'f' _ _ cs rest (by decide) (by decide) (ih rest)
    by_cases h7 : c = '\r'
    · subst h7
      have : escapeChar '\r' = ['\\', 'r'] := by decide
      simp only [escapeChars, this, List.cons_append, List.nil_append]
      exact psb_esc 'r' _ _ cs rest (by decide) (by decide) (ih rest)
    by_cases h8 : c.toNat < 0x20
    · have hesc : escapeChar c =
          ['\\', 'u', '0', '0', hexDigitChar (c.toNat / 16),
            hexDigitChar (c.toNat % 16)] := by
        simp [escapeChar, h1, h2, h3, h4, h5, h6, h7, h8]
      simp only [escapeChars, hesc, List.cons_append, List.nil_append]
      have := psb_u00 (c.toNat / 16) (c.toNat % 16) (by omega) (by omega)
        (by omega) _ cs rest (ih rest)
      rw [this]
      have harg : c.toNat / 16 * 16 + c.toNat % 16 = c.toNat := by omega
      rw [harg, Char.ofNat_toNat]
    · have hesc : escapeChar c = [c] := by
        simp [escapeChar, h1, h2, h3, h4, h5, h6, h7, h8]
      simp only [escapeChars, hesc, List.cons_append, List.nil_append]
      exact psb_plain c h1 h2 h8 _ cs rest (ih rest)



theorem skipWs_cons_nws (c : Char) (l : List Char) (h : isJsonWs c = false) :
    skipWs (c :: l) = c :: l := by
  simp [skipWs, List.dropWhile_cons, h]

theorem parseValue_null (n : Nat) (rest : List Char) :
    parseValue (n + 1) ('n' :: 'u' :: 'l' :: 'l' :: rest) =
      some (Json.null, rest) := by
  rw [parseValue.eq_2]
  rw [skipWs_cons_nws _ _ (by decide)]
  simp

theorem parseValue_str (n : Nat) (s rest : List Char) :
    parseValue (n + 1) ('"' :: (escapeChars s ++ '"' :: rest)) =
      some (Json.str s, rest) := by
  rw [parseValue.eq_2]
  rw [skipWs_cons_nws _ _ (by decide)]
  simp [parseStringBody_escapeChars s rest]

theorem parseValue_optStr (n : Nat) (o : Option String) (rest : List Char) :
    parseValue (n + 1) (renderOptStr o ++ rest) =
      some (jsonOfOptStr o, rest) := by
  cases o with
  | none => exact parseValue_null n rest
  | some s =>
    have : renderOptStr (some s) ++ rest =
        '"' :: (escapeChars s.data ++ '"' :: rest) := by
      simp [renderOptStr]
    rw [this]
    exact parseValue_str n s.data rest



theorem parseMembers_single (n : Nat) (k : List Char) (o : Option String)
    (rest : List Char) :
    parseMembers (n + 2)
        ('"' :: (escapeChars k ++ '"' :: ':' :: (renderOptStr o ++ '}' :: rest))) =
      some ([(k, jsonOfOptStr o)], rest) := by
  rw [parseMembers.eq_2]
  simp [skipWs_cons_nws, isJsonWs, parseStringBody_escapeChars, parseValue_optStr]

theorem parseMembers_pair (n : Nat) (k1 k2 : List Char) (o1 o2 : Option String)
    (rest : List Char) :
    parseMembers (n + 3)
        ('"' :: (escapeChars k1 ++ '"' :: ':' ::
          (renderOptStr o1 ++ ',' :: '"' ::
            (escapeChars k2 ++ '"' :: ':' :: (renderOptStr o2 ++ '}' :: rest))))) =
      some ([(k1, jsonOfOptStr o1), (k2, jsonOfOptStr o2)], rest) := by
  rw [parseMembers.eq_2]
  have hv : parseValue (n + 2) (renderOptStr o1 ++ ',' :: '"' ::
      (escapeChars k2 ++ '"' :: ':' :: (renderOptStr o2 ++ '}' :: rest))) =
      some (jsonOfOptStr o1, ',' :: '"' ::
        (escapeChars k2 ++ '"' :: ':' :: (renderOptStr o2 ++ '}' :: rest))) :=
    parseValue_optStr (n + 1) o1 _
  simp [skipWs_cons_nws, isJsonWs, parseStringBody_escapeChars, hv,
    parseMembers_single n k2 o2 rest]

theorem renderMeta_shape (m : EmailThreadMeta) :
    renderMeta m = '{' :: '"' ::
      (escapeChars midKey ++ '"' :: ':' ::
        (renderOptStr m.message_id ++ ',' :: '"' ::
          (escapeChars subjKey ++ '"' :: ':' ::
            (renderOptStr m.subject ++ '}' :: [])))) := by
  simp [renderMeta, List.append_assoc]

theorem parseValue_renderMeta (n : Nat) (m : EmailThreadMeta) :
    parseValue (n + 4) (renderMeta m) =
      some (Json.obj [(midKey, jsonOfOptStr m.message_id),
        (subjKey, jsonOfOptStr m.subject)], []) := by
  rw [renderMeta_shape]
  rw [parseValue.eq_2]
  simp [skipWs_cons_nws, isJsonWs,
    parseMembers_pair n midKey subjKey m.message_id m.subject []]



theorem renderMeta_length (m : EmailThreadMeta) :
    3 ≤ (renderMeta m).length := by
  simp [renderMeta]
  omega

theorem parseJsonChars_renderMeta (m : EmailThreadMeta) :
    parseJsonChars (renderMeta m) =
      some (Json.obj [(midKey, jsonOfOptStr m.message_id),
        (subjKey, jsonOfOptStr m.subject)]) := by
  have hlen := renderMeta_length m
  have hfuel : (renderMeta m).length + 1 = ((renderMeta m).length - 3) + 4 := by
    omega
  rw [parseJsonChars, hfuel, parseValue_renderMeta]
  simp [skipWs]

theorem metaOfJson_pair (m : EmailThreadMeta) :
    metaOfJson (Json.obj [(midKey, jsonOfOptStr m.message_id),
      (subjKey, jsonOfOptStr m.subject)]) = some m := by
  have hms : (subjKey == midKey) = false := by decide
  have hsm : (midKey == subjKey) = false := by decide
  have hmm : (midKey == midKey) = true := by decide
  have hss : (subjKey == subjKey) = true := by decide
  cases m with
  | mk mi su =>
    cases mi <;> cases su <;>
      simp [metaOfJson, countKey, jsonFieldValue, jsonOfOptStr,
        List.filter_cons, List.find?_cons, hms, hsm, hmm, hss]

/-- C2: encoding a ThreadMetadata with at least one field set and
decoding the result yields the original value. -/
theorem spec_c2_roundtrip (m : EmailThreadMeta)
    (h : m.message_id ≠ none ∨ m.subject ≠ none) :
    ∃ e, encode_thread_meta m = some e ∧ decode_thread_meta e = some m := by
  have hne : ¬(m.message_id = none ∧ m.subject = none) := by tauto
  refine ⟨String.mk (renderMeta m), ?_, ?_⟩
  · simp [encode_thread_meta, hne]
  · show (match parseJsonChars (String.mk (renderMeta m)).data with
      | some j => metaOfJson j
      | none => none) = some m
    have hdata : (String.mk (renderMeta m)).data = renderMeta m := rfl
    rw [hdata, parseJsonChars_renderMeta]
    exact metaOfJson_pair m

/-- Witness for C2: a concrete metadata value survives the roundtrip. -/
theorem spec_c2_roundtrip_witness :
    ∃ e, encode_thread_meta ⟨some "<id@example.com>", some "Question"⟩ = some e ∧
      decode_thread_meta e = some ⟨some "<id@example.com>", some "Question"⟩ :=
  spec_c2_roundtrip ⟨some "<id@example.com>", some "Question"⟩ (by simp)



theorem hexVal_ne_sep (x : Char) (n : Nat) (h : hexVal x = some n) :
    x ≠ sepChar := by
  intro he
  subst he
  rw [show hexVal sepChar = none from by decide] at h
  exact Option.noConfusion h

theorem unescapeChar_ne_sep (e u : Char) (h : unescapeChar e = some u) :
    e ≠ sepChar := by
  intro he
  subst he
  rw [show unescapeChar sepChar = none from by decide] at h
  exact Option.noConfusion h

theorem parseStringBody_split :
    ∀ (N : Nat) (l s r : List Char), l.length ≤ N →
      parseStringBody l = some (s, r) → ∃ p, l = p ++ r ∧ sepChar ∉ p := by
  intro N
  induction N with
  | zero =>
    intro l s r hl h
    cases l with
    | nil => simp [parseStringBody] at h
    | cons c rest => simp at hl
  | succ N ih =>
    intro l s r hl h
    cases l with
    | nil => simp [parseStringBody] at h
    | cons c rest =>
      rw [parseStringBody.eq_def] at h
      simp only [] at h
      by_cases h1 : c = '"'
      · rw [if_pos h1] at h
        simp only [Option.some.injEq, Prod.mk.injEq] at h
        obtain ⟨hs, hr⟩ := h
        subst h1
        exact ⟨['"'], by simp [hr], by decide⟩
      rw [if_neg h1] at h
      by_cases h2 : c = '\\'
      · rw [if_pos h2] at h
        cases rest with
        | nil => simp at h
        | cons e rest2 =>
          simp only [] at h
          by_cases h3 : e = 'u'
          · rw [if_pos h3] at h
            match rest2, h with
            | a :: b :: d :: f :: rest4, h => ?_
            | [], h => exact absurd h (by simp)
            | [_], h => exact absurd h (by simp)
            | [_, _], h => exact absurd h (by simp)
            | [_, _, _], h => exact absurd h (by simp)
            simp only [] at h
            cases hva : hexVal a with
            | none => rw [hva] at h; simp at h
            | some va =>
            cases hvb : hexVal b with
            | none => rw [hva, hvb] at h; simp at h
            | some vb =>
            cases hvd : hexVal d with
            | none => rw [hva, hvb, hvd] at h; simp at h
            | some vd =>
            cases hvf : hexVal f with
            | none => rw [hva, hvb, hvd, hvf] at h; simp at h
            | some vf =>
            rw [hva, hvb, hvd, hvf] at h
            simp only at h
            by_cases hcode : ((va * 16 + vb) * 16 + vd) * 16 + vf < 55296 ∨
                57344 ≤ ((va * 16 + vb) * 16 + vd) * 16 + vf
            · rw [if_pos hcode] at h
              cases hps : parseStringBody rest4 with
              | none => rw [hps] at h; simp at h
              | some pr =>
                obtain ⟨s2, r2⟩ := pr
                rw [hps] at h
                simp only [Option.some.injEq, Prod.mk.injEq] at h
                obtain ⟨hs, hr⟩ := h
                have hlen : rest4.length ≤ N := by
                  simp at hl; omega
                obtain ⟨p, hp, hnp⟩ := ih rest4 s2 r2 hlen hps
                subst h2 h3
                refine ⟨'\\' :: 'u' :: a :: b :: d :: f :: p, ?_, ?_⟩
                · subst hr
                  simp [hp]
                · intro hmem
                  simp only [List.mem_cons] at hmem
                  rcases hmem with hx | hx | hx | hx | hx | hx | hx
                  · exact absurd hx.symm (by decide)
                  · exact absurd hx.symm (by decide)
                  · exact hexVal_ne_sep a va hva hx.symm
                  · exact hexVal_ne_sep b vb hvb hx.symm
                  · exact hexVal_ne_sep d vd hvd hx.symm
                  · exact hexVal_ne_sep f vf hvf hx.symm
                  · exact hnp hx
            · rw [if_neg hcode] at h
              simp at h
          · rw [if_neg h3] at h
            cases hue : unescapeChar e with
            | none => rw [hue] at h; simp at h
            | some u =>
              rw [hue] at h
              cases hps : parseStringBody rest2 with
              | none => rw [hps] at h; simp at h
              | some pr =>
                obtain ⟨s2, r2⟩ := pr
                rw [hps] at h
                simp only [Option.some.injEq, Prod.mk.injEq] at h
                obtain ⟨hs, hr⟩ := h
                have hlen : rest2.length ≤ N := by
                  simp at hl; omega
                obtain ⟨p, hp, hnp⟩ := ih rest2 s2 r2 hlen hps
                subst h2
                refine ⟨'\\' :: e :: p, ?_, ?_⟩
                · subst hr
                  simp [hp]
                · intro hmem
                  simp only [List.mem_cons] at hmem
                  rcases hmem with hx | hx | hx
                  · exact absurd hx.symm (by decide)
                  · exact unescapeChar_ne_sep e u hue hx.symm
                  · exact hnp hx
      rw [if_neg h2] at h
      by_cases h3 : c.toNat < 0x20
      · rw [if_pos h3] at h
        simp at h
      · rw [if_neg h3] at h
        cases hps : parseStringBody rest with
        | none => rw [hps] at h; simp at h
        | some pr =>
          obtain ⟨s2, r2⟩ := pr
          rw [hps] at h
          simp only [Option.some.injEq, Prod.mk.injEq] at h
          obtain ⟨hs, hr⟩ := h
          have hlen : rest.length ≤ N := by
            simp at hl; omega
          obtain ⟨p, hp, hnp⟩ := ih rest s2 r2 hlen hps
          refine ⟨c :: p, ?_, ?_⟩
          · subst hr
            simp [hp]
          · intro hmem
            simp only [List.mem_cons] at hmem
            rcases hmem with hx | hx
            · rw [← hx] at h3
              exact h3 (by decide)
            · exact hnp hx



theorem skipWs_split (l : List Char) :
    ∃ p, l = p ++ skipWs l ∧ sepChar ∉ p := by
  refine ⟨l.takeWhile isJsonWs, (List.takeWhile_append_dropWhile _ _).symm, ?_⟩
  intro hmem
  exact absurd (List.mem_takeWhile_imp hmem) (by decide)

theorem split_append (l r r2 p1 p2 : List Char)
    (h1 : l = p1 ++ r) (hn1 : sepChar ∉ p1)
    (h2 : r = p2 ++ r2) (hn2 : sepChar ∉ p2) :
    ∃ p, l = p ++ r2 ∧ sepChar ∉ p := by
  refine ⟨p1 ++ p2, ?_, ?_⟩
  · rw [h1, h2, List.append_assoc]
  · intro hmem
    rcases List.mem_append.mp hmem with hx | hx
    · exact hn1 hx
    · exact hn2 hx

theorem split_cons_append (l rest r p p2 : List Char) (c : Char)
    (h1 : l = p ++ c :: rest) (hn1 : sepChar ∉ p) (hc : c ≠ sepChar)
    (h2 : rest = p2 ++ r) (hn2 : sepChar ∉ p2) :
    ∃ q, l = q ++ r ∧ sepChar ∉ q := by
  refine ⟨p ++ c :: p2, ?_, ?_⟩
  · rw [h1, h2]
    simp
  · intro hmem
    simp only [List.mem_append, List.mem_cons] at hmem
    rcases hmem with hx | hx | hx
    · exact hn1 hx
    · exact hc hx.symm
    · exact hn2 hx

theorem split_cons_self (l rest p : List Char) (c : Char)
    (h1 : l = p ++ c :: rest) (hn1 : sepChar ∉ p) (hc : c ≠ sepChar) :
    ∃ q, l = q ++ rest ∧ sepChar ∉ q :=
  split_cons_append l rest rest p [] c h1 hn1 hc rfl (by simp)

theorem parseIntPart_split (l ip r : List Char) (h : parseIntPart l = some (ip, r)) :
    ∃ p, l = p ++ r ∧ sepChar ∉ p := by
  cases l with
  | nil => simp [parseIntPart] at h
  | cons c rest =>
    rw [parseIntPart.eq_def] at h
    simp only [] at h
    by_cases h1 : c = '0'
    · rw [if_pos h1] at h
      subst h1
      cases rest with
      | nil =>
        simp only [Option.some.injEq, Prod.mk.injEq] at h
        obtain ⟨hip, hr⟩ := h
        exact ⟨['0'], by simp [← hr], by decide⟩
      | cons d rest2 =>
        simp only [] at h
        by_cases hd : d.isDigit = true
        · rw [if_pos hd] at h
          exact absurd h (by simp)
        · rw [if_neg hd] at h
          simp only [Option.some.injEq, Prod.mk.injEq] at h
          obtain ⟨hip, hr⟩ := h
          exact ⟨['0'], by simp [← hr], by decide⟩
    · rw [if_neg h1] at h
      by_cases h2 : c.isDigit = true
      · rw [if_pos h2] at h
        simp only [Option.some.injEq, Prod.mk.injEq] at h
        obtain ⟨hip, hr⟩ := h
        refine ⟨c :: rest.takeWhile Char.isDigit, ?_, ?_⟩
        · rw [← hr]
          simp [List.takeWhile_append_dropWhile]
        · intro hmem
          simp only [List.mem_cons] at hmem
          rcases hmem with hx | hx
          · rw [← hx] at h2
            exact absurd h2 (by decide)
          · exact absurd (List.mem_takeWhile_imp hx) (by decide)
      · rw [if_neg h2] at h
        exact absurd h (by simp)

theorem parseFracPart_split (l fp r : List Char)
    (h : parseFracPart l = some (fp, r)) :
    ∃ p, l = p ++ r ∧ sepChar ∉ p := by
  cases l with
  | nil =>
    simp only [parseFracPart, Option.some.injEq, Prod.mk.injEq] at h
    obtain ⟨hfp, hr⟩ := h
    exact ⟨[], by simp [← hr], by simp⟩
  | cons c rest =>
    rw [parseFracPart.eq_def] at h
    simp only [] at h
    by_cases h1 : c = '.'
    · rw [if_pos h1] at h
      subst h1
      cases htw : rest.takeWhile Char.isDigit with
      | nil => rw [htw] at h; simp at h
      | cons d ds =>
        rw [htw] at h
        simp only [Option.some.injEq, Prod.mk.injEq] at h
        obtain ⟨hfp, hr⟩ := h
        refine ⟨'.' :: rest.takeWhile Char.isDigit, ?_, ?_⟩
        · rw [← hr]
          simp [List.takeWhile_append_dropWhile]
        · intro hmem
          simp only [List.mem_cons] at hmem
          rcases hmem with hx | hx
          · exact absurd hx (by decide)
          · exact absurd (List.mem_takeWhile_imp hx) (by decide)
    · rw [if_neg h1] at h
      simp only [Option.some.injEq, Prod.mk.injEq] at h
      obtain ⟨hfp, hr⟩ := h
      exact ⟨[], by simp [← hr], by simp⟩

theorem parseExpPart_split (l ep r : List Char)
    (h : parseExpPart l = some (ep, r)) :
    ∃ p, l = p ++ r ∧ sepChar ∉ p := by
  cases l with
  | nil =>
    simp only [parseExpPart, Option.some.injEq, Prod.mk.injEq] at h
    obtain ⟨hep, hr⟩ := h
    exact ⟨[], by simp [← hr], by simp⟩
  | cons c rest =>
    rw [parseExpPart.eq_def] at h
    simp only [] at h
    by_cases h1 : c = 'e' ∨ c = 'E'
    · rw [if_pos h1] at h
      have hcsep : c ≠ sepChar := by
        rcases h1 with h1 | h1 <;> subst h1 <;> decide
      cases rest with
      | nil =>
        simp only [] at h
        exact absurd h (by simp [List.takeWhile])
      | cons s r2 =>
        simp only [] at h
        by_cases hs : s = '+' ∨ s = '-'
        · rw [if_pos hs] at h
          simp only [] at h
          cases htw : r2.takeWhile Char.isDigit with
          | nil => rw [htw] at h; simp at h
          | cons d ds =>
            rw [htw] at h
            simp only [Option.some.injEq, Prod.mk.injEq] at h
            obtain ⟨hep, hr⟩ := h
            have hssep : s ≠ sepChar := by
              rcases hs with hs | hs <;> subst hs <;> decide
            refine ⟨c :: s :: r2.takeWhile Char.isDigit, ?_, ?_⟩
            · rw [← hr]
              simp [List.takeWhile_append_dropWhile]
            · intro hmem
              simp only [List.mem_cons] at hmem
              rcases hmem with hx | hx | hx
              · exact hcsep hx.symm
              · exact hssep hx.symm
              · exact absurd (List.mem_takeWhile_imp hx) (by decide)
        · rw [if_neg hs] at h
          simp only [] at h
          cases htw : (s :: r2).takeWhile Char.isDigit with
          | nil => rw [htw] at h; simp at h
          | cons d ds =>
            rw [htw] at h
            simp only [Option.some.injEq, Prod.mk.injEq] at h
            obtain ⟨hep, hr⟩ := h
            refine ⟨c :: (s :: r2).takeWhile Char.isDigit, ?_, ?_⟩
            · rw [← hr]
              simp [List.takeWhile_append_dropWhile]
            · intro hmem
              simp only [List.mem_cons] at hmem
              rcases hmem with hx | hx
              · exact hcsep hx.symm
              · exact absurd (List.mem_takeWhile_imp hx) (by decide)
    · rw [if_neg h1] at h
      simp only [Option.some.injEq, Prod.mk.injEq] at h
      obtain ⟨hep, hr⟩ := h
      exact ⟨[], by simp [← hr], by simp⟩

theorem parseNumberCore_split (l lex r : List Char)
    (h : parseNumberCore l = some (lex, r)) :
    ∃ p, l = p ++ r ∧ sepChar ∉ p := by
  rw [parseNumberCore.eq_def] at h
  cases hip : parseIntPart l with
  | none => rw [hip] at h; simp at h
  | some p1 =>
    obtain ⟨ip, r1⟩ := p1
    rw [hip] at h
    simp only [] at h
    cases hfp : parseFracPart r1 with
    | none => rw [hfp] at h; simp at h
    | some p2 =>
      obtain ⟨fp, r2⟩ := p2
      rw [hfp] at h
      simp only [] at h
      cases hep : parseExpPart r2 with
      | none => rw [hep] at h; simp at h
      | some p3 =>
        obtain ⟨ep, r3⟩ := p3
        rw [hep] at h
        simp only [Option.some.injEq, Prod.mk.injEq] at h
        obtain ⟨hlex, hr⟩ := h
        obtain ⟨q1, hq1, hn1⟩ := parseIntPart_split l ip r1 hip
        obtain ⟨q2, hq2, hn2⟩ := parseFracPart_split r1 fp r2 hfp
        obtain ⟨q3, hq3, hn3⟩ := parseExpPart_split r2 ep r3 hep
        obtain ⟨q12, hq12, hn12⟩ := split_append l r1 r2 q1 q2 hq1 hn1 hq2 hn2
        obtain ⟨q, hq, hnq⟩ := split_append l r2 r3 q12 q3 hq12 hn12 hq3 hn3
        exact ⟨q, hr ▸ hq, hnq⟩

theorem parseNumberFrom_split (l lex r : List Char)
    (h : parseNumberFrom l = some (lex, r)) :
    ∃ p, l = p ++ r ∧ sepChar ∉ p := by
  cases l with
  | nil => exact parseNumberCore_split [] lex r h
  | cons c rest =>
    rw [parseNumberFrom.eq_def] at h
    simp only [] at h
    by_cases hc : c = '-'
    · rw [if_pos hc] at h
      cases hcore : parseNumberCore rest with
      | none => rw [hcore] at h; simp at h
      | some pr =>
        obtain ⟨lex2, r2⟩ := pr
        rw [hcore] at h
        simp only [Option.some.injEq, Prod.mk.injEq] at h
        obtain ⟨hlex, hr⟩ := h
        obtain ⟨p, hp, hnp⟩ := parseNumberCore_split rest lex2 r2 hcore
        subst hc
        refine ⟨'-' :: p, ?_, ?_⟩
        · rw [← hr]
          simp [hp]
        intro hmem
        simp only [List.mem_cons] at hmem
        rcases hmem with hx | hx
        · exact absurd hx (by decide)
        · exact hnp hx
    · rw [if_neg hc] at h
      exact parseNumberCore_split (c :: rest) lex r h



theorem parsers_split :
    ∀ n : Nat,
      (∀ l v r, parseValue n l = some (v, r) → ∃ p, l = p ++ r ∧ sepChar ∉ p) ∧
      (∀ l ms r, parseMembers n l = some (ms, r) →
        ∃ p, l = p ++ r ∧ sepChar ∉ p) ∧
      (∀ l es r, parseElems n l = some (es, r) →
        ∃ p, l = p ++ r ∧ sepChar ∉ p) := by
  intro n
  induction n with
  | zero =>
    refine ⟨?_, ?_, ?_⟩ <;> intro l x r h <;>
      simp [parseValue, parseMembers, parseElems] at h
  | succ n ih =>
    obtain ⟨ihv, ihm, ihe⟩ := ih
    refine ⟨?_, ?_, ?_⟩
    · -- parseValue
      intro l v r h
      rw [parseValue.eq_2] at h
      obtain ⟨pw, hpw, hnw⟩ := skipWs_split l
      cases hsw : skipWs l with
      | nil => rw [hsw] at h; simp at h
      | cons c r1 =>
        rw [hsw] at h
        simp only [] at h
        rw [hsw] at hpw
        by_cases hc1 : c = '{'
        · rw [if_pos hc1] at h
          obtain ⟨pw2, hpw2, hnw2⟩ := skipWs_split r1
          cases hsw2 : skipWs r1 with
          | nil => rw [hsw2] at h; simp at h
          | cons d r2 =>
            rw [hsw2] at h
            simp only [] at h
            rw [hsw2] at hpw2
            by_cases hd : d = '}'
            · rw [if_pos hd] at h
              simp only [Option.some.injEq, Prod.mk.injEq] at h
              obtain ⟨hv, hr⟩ := h
              refine split_cons_append l r1 r pw (pw2 ++ [d]) c hpw hnw
                (by rw [hc1]; decide) ?_ ?_
              · rw [hpw2, ← hr]
                simp
              · intro hmem
                rcases List.mem_append.mp hmem with hx | hx
                · exact hnw2 hx
                · rw [List.mem_singleton] at hx
                  rw [hd] at hx
                  exact absurd hx (by decide)
            · rw [if_neg hd] at h
              cases hm : parseMembers n (d :: r2) with
              | none => rw [hm] at h; simp at h
              | some pm =>
                obtain ⟨ms, r3⟩ := pm
                rw [hm] at h
                simp only [Option.some.injEq, Prod.mk.injEq] at h
                obtain ⟨hv, hr⟩ := h
                obtain ⟨pm2, hpm, hnm⟩ := ihm (d :: r2) ms r3 hm
                refine split_cons_append l r1 r pw (pw2 ++ pm2) c hpw hnw
                  (by rw [hc1]; decide) ?_ ?_
                · rw [hpw2, hpm, hr]
                  simp
                · intro hmem
                  rcases List.mem_append.mp hmem with hx | hx
                  · exact hnw2 hx
                  · exact hnm hx
        rw [if_neg hc1] at h
        by_cases hc2 : c = '['
        · rw [if_pos hc2] at h
          obtain ⟨pw2, hpw2, hnw2⟩ := skipWs_split r1
          cases hsw2 : skipWs r1 with
          | nil => rw [hsw2] at h; simp at h
          | cons d r2 =>
            rw [hsw2] at h
            simp only [] at h
            rw [hsw2] at hpw2
            by_cases hd : d = ']'
            · rw [if_pos hd] at h
              simp only [Option.some.injEq, Prod.mk.injEq] at h
              obtain ⟨hv, hr⟩ := h
              refine split_cons_append l r1 r pw (pw2 ++ [d]) c hpw hnw
                (by rw [hc2]; decide) ?_ ?_
              · rw [hpw2, ← hr]
                simp
              · intro hmem
                rcases List.mem_append.mp hmem with hx | hx
                · exact hnw2 hx
                · rw [List.mem_singleton] at hx
                  rw [hd] at hx
                  exact absurd hx (by decide)
            · rw [if_neg hd] at h
              cases hm : parseElems n (d :: r2) with
              | none => rw [hm] at h; simp at h
              | some pe =>
                obtain ⟨es, r3⟩ := pe
                rw [hm] at h
                simp only [Option.some.injEq, Prod.mk.injEq] at h
                obtain ⟨hv, hr⟩ := h
                obtain ⟨pe2, hpe, hne⟩ := ihe (d :: r2) es r3 hm
                refine split_cons_append l r1 r pw (pw2 ++ pe2) c hpw hnw
                  (by rw [hc2]; decide) ?_ ?_
                · rw [hpw2, hpe, hr]
                  simp
                · intro hmem
                  rcases List.mem_append.mp hmem with hx | hx
                  · exact hnw2 hx
                  · exact hne hx
        rw [if_neg hc2] at h
        by_cases hc3 : c = '"'
        · rw [if_pos hc3] at h
          cases hsb : parseStringBody r1 with
          | none => rw [hsb] at h; simp at h
          | some pr =>
            obtain ⟨sdata, r2⟩ := pr
            rw [hsb] at h
            simp only [Option.some.injEq, Prod.mk.injEq] at h
            obtain ⟨hv, hr⟩ := h
            obtain ⟨p2, hp2, hn2⟩ :=
              parseStringBody_split r1.length r1 sdata r2 (le_refl _) hsb
            exact split_cons_append l r1 r pw p2 c hpw hnw
              (by rw [hc3]; decide) (hr ▸ hp2) hn2
        rw [if_neg hc3] at h
        by_cases hc4 : c = 't'
        · rw [if_pos hc4] at h
          split at h
          · rename_i r2
            simp only [Option.some.injEq, Prod.mk.injEq] at h
            obtain ⟨hv, hr⟩ := h
            refine split_cons_append l ('r' :: 'u' :: 'e' :: r2) r pw
              ('r' :: 'u' :: ['e']) c hpw hnw (by rw [hc4]; decide) ?_ ?_
            · rw [← hr]
              simp
            · decide
          · simp at h
        rw [if_neg hc4] at h
        by_cases hc5 : c = 'f'
        · rw [if_pos hc5] at h
          split at h
          · rename_i r2
            simp only [Option.some.injEq, Prod.mk.injEq] at h
            obtain ⟨hv, hr⟩ := h
            refine split_cons_append l ('a' :: 'l' :: 's' :: 'e' :: r2) r pw
              ('a' :: 'l' :: 's' :: ['e']) c hpw hnw (by rw [hc5]; decide) ?_ ?_
            · rw [← hr]
              simp
            · decide
          · simp at h
        rw [if_neg hc5] at h
        by_cases hc6 : c = 'n'
        · rw [if_pos hc6] at h
          split at h
          · rename_i r2
            simp only [Option.some.injEq, Prod.mk.injEq] at h
            obtain ⟨hv, hr⟩ := h
            refine split_cons_append l ('u' :: 'l' :: 'l' :: r2) r pw
              ('u' :: 'l' :: ['l']) c hpw hnw (by rw [hc6]; decide) ?_ ?_
            · rw [← hr]
              simp
            · decide
          · simp at h
        rw [if_neg hc6] at h
        by_cases hc7 : c = '-' ∨ c.isDigit
        · rw [if_pos hc7] at h
          cases hnum : parseNumberFrom (c :: r1) with
          | none => rw [hnum] at h; simp at h
          | some pr =>
            obtain ⟨lex, r2⟩ := pr
            rw [hnum] at h
            simp only [Option.some.injEq, Prod.mk.injEq] at h
            obtain ⟨hv, hr⟩ := h
            obtain ⟨p2, hp2, hn2⟩ := parseNumberFrom_split (c :: r1) lex r2 hnum
            exact split_append l (c :: r1) r pw p2 hpw hnw (hr ▸ hp2) hn2
        · rw [if_neg hc7] at h
          simp at h
    · -- parseMembers
      intro l ms r h
      rw [parseMembers.eq_2] at h
      obtain ⟨pw, hpw, hnw⟩ := skipWs_split l
      cases hsw : skipWs l with
      | nil => rw [hsw] at h; simp at h
      | cons c r1 =>
        rw [hsw] at h
        simp only [] at h
        rw [hsw] at hpw
        by_cases hc : c = '"'
        · rw [if_pos hc] at h
          cases hsb : parseStringBody r1 with
          | none => rw [hsb] at h; simp at h
          | some pr =>
            obtain ⟨key, r2⟩ := pr
            rw [hsb] at h
            simp only [] at h
            obtain ⟨pk, hpk, hnk⟩ :=
              parseStringBody_split r1.length r1 key r2 (le_refl _) hsb
            obtain ⟨pw2, hpw2, hnw2⟩ := skipWs_split r2
            cases hsw2 : skipWs r2 with
            | nil => rw [hsw2] at h; simp at h
            | cons d r3 =>
              rw [hsw2] at h
              simp only [] at h
              rw [hsw2] at hpw2
              by_cases hd : d = ':'
              · rw [if_pos hd] at h
                cases hv : parseValue n r3 with
                | none => rw [hv] at h; simp at h
                | some pv =>
                  obtain ⟨v, r4⟩ := pv
                  rw [hv] at h
                  simp only [] at h
                  obtain ⟨pv2, hpv, hnv⟩ := ihv r3 v r4 hv
                  obtain ⟨pw3, hpw3, hnw3⟩ := skipWs_split r4
                  cases hsw3 : skipWs r4 with
                  | nil => rw [hsw3] at h; simp at h
                  | cons e r5 =>
                    rw [hsw3] at h
                    simp only [] at h
                    rw [hsw3] at hpw3
                    by_cases he : e = ','
                    · rw [if_pos he] at h
                      cases hm2 : parseMembers n r5 with
                      | none => rw [hm2] at h; simp at h
                      | some pm =>
                        obtain ⟨ms2, r6⟩ := pm
                        rw [hm2] at h
                        simp only [Option.some.injEq, Prod.mk.injEq] at h
                        obtain ⟨hms, hr⟩ := h
                        obtain ⟨pm3, hpm, hnm2⟩ := ihm r5 ms2 r6 hm2
                        obtain ⟨q5, hq5, hn5⟩ := split_cons_append r4 r5 r pw3
                          pm3 e hpw3 hnw3 (by rw [he]; decide) (hr ▸ hpm) hnm2
                        obtain ⟨q4, hq4, hn4⟩ := split_append r3 r4 r pv2 q5
                          hpv hnv hq5 hn5
                        obtain ⟨q3, hq3, hn3⟩ := split_cons_append r2 r3 r pw2
                          q4 d hpw2 hnw2 (by rw [hd]; decide) hq4 hn4
                        obtain ⟨q2, hq2, hn2⟩ := split_append r1 r2 r pk q3
                          hpk hnk hq3 hn3
                        exact split_cons_append l r1 r pw q2 c hpw hnw
                          (by rw [hc]; decide) hq2 hn2
                    · rw [if_neg he] at h
                      by_cases he2 : e = '}'
                      · rw [if_pos he2] at h
                        simp only [Option.some.injEq, Prod.mk.injEq] at h
                        obtain ⟨hms, hr⟩ := h
                        obtain ⟨q5, hq5, hn5⟩ := split_cons_self r4 r5 pw3 e
                          hpw3 hnw3 (by rw [he2]; decide)
                        obtain ⟨q4, hq4, hn4⟩ := split_append r3 r4 r5 pv2 q5
                          hpv hnv hq5 hn5
                        obtain ⟨q3, hq3, hn3⟩ := split_cons_append r2 r3 r5 pw2
                          q4 d hpw2 hnw2 (by rw [hd]; decide) hq4 hn4
                        obtain ⟨q2, hq2, hn2⟩ := split_append r1 r2 r5 pk q3
                          hpk hnk hq3 hn3
                        obtain ⟨q, hq, hnq⟩ := split_cons_append l r1 r5 pw q2
                          c hpw hnw (by rw [hc]; decide) hq2 hn2
                        exact ⟨q, hr ▸ hq, hnq⟩
                      · rw [if_neg he2] at h
                        simp at h
              · rw [if_neg hd] at h
                simp at h
        · rw [if_neg hc] at h
          simp at h
    · -- parseElems
      intro l es r h
      rw [parseElems.eq_2] at h
      cases hv : parseValue n l with
      | none => rw [hv] at h; simp at h
      | some pv =>
        obtain ⟨v, r1⟩ := pv
        rw [hv] at h
        simp only [] at h
        obtain ⟨pv2, hpv, hnv⟩ := ihv l v r1 hv
        obtain ⟨pw, hpw, hnw⟩ := skipWs_split r1
        cases hsw : skipWs r1 with
        | nil => rw [hsw] at h; simp at h
        | cons e r2 =>
          rw [hsw] at h
          simp only [] at h
          rw [hsw] at hpw
          by_cases he : e = ','
          · rw [if_pos he] at h
            cases he2 : parseElems n r2 with
            | none => rw [he2] at h; simp at h
            | some pe =>
              obtain ⟨es2, r3⟩ := pe
              rw [he2] at h
              simp only [Option.some.injEq, Prod.mk.injEq] at h
              obtain ⟨hes, hr⟩ := h
              obtain ⟨pe3, hpe, hne⟩ := ihe r2 es2 r3 he2
              obtain ⟨q2, hq2, hn2⟩ := split_cons_append r1 r2 r pw pe3 e hpw
                hnw (by rw [he]; decide) (hr ▸ hpe) hne
              exact split_append l r1 r pv2 q2 hpv hnv hq2 hn2
          · rw [if_neg he] at h
            by_cases he3 : e = ']'
            · rw [if_pos he3] at h
              simp only [Option.some.injEq, Prod.mk.injEq] at h
              obtain ⟨hes, hr⟩ := h
              obtain ⟨q2, hq2, hn2⟩ := split_cons_self r1 r2 pw e hpw hnw
                (by rw [he3]; decide)
              obtain ⟨q, hq, hnq⟩ := split_append l r1 r2 pv2 q2 hpv hnv hq2 hn2
              exact ⟨q, hr ▸ hq, hnq⟩
            · rw [if_neg he3] at h
              simp at h



theorem parseJsonChars_sep (l : List Char) (h : sepChar ∈ l) :
    parseJsonChars l = none := by
  cases hp : parseJsonChars l with
  | none => rfl
  | some j =>
    exfalso
    rw [parseJsonChars] at hp
    cases hv : parseValue (l.length + 1) l with
    | none => rw [hv] at hp; simp at hp
    | some pr =>
      obtain ⟨v, rest⟩ := pr
      rw [hv] at hp
      simp only [] at hp
      by_cases hws : skipWs rest = []
      · obtain ⟨p, hpl, hnp⟩ := (parsers_split (l.length + 1)).1 l v rest hv
        rw [hpl] at h
        rcases List.mem_append.mp h with hx | hx
        · exact hnp hx
        · have hall : ∀ x ∈ rest, isJsonWs x = true := by
            rw [← List.dropWhile_eq_nil_iff]
            exact hws
          exact absurd (hall _ hx) (by decide)
      · rw [if_neg hws] at hp
        simp at hp

theorem decode_thread_meta_sep (raw : String) (h : sepChar ∈ raw.data) :
    decode_thread_meta raw = none := by
  rw [decode_thread_meta, parseJsonChars_sep raw.data h]

theorem splitOnceSep_some :
    ∀ (l a b : List Char), splitOnceSep l = some (a, b) →
      l = a ++ sepChar :: b ∧ sepChar ∉ a := by
  intro l
  induction l with
  | nil => intro a b h; simp [splitOnceSep] at h
  | cons c rest ih =>
    intro a b h
    rw [splitOnceSep.eq_def] at h
    simp only [] at h
    by_cases hc : c = sepChar
    · rw [if_pos hc] at h
      simp only [Option.some.injEq, Prod.mk.injEq] at h
      obtain ⟨ha, hb⟩ := h
      subst hc
      rw [← ha, ← hb]
      exact ⟨rfl, by simp⟩
    · rw [if_neg hc] at h
      cases hsp : splitOnceSep rest with
      | none => rw [hsp] at h; simp at h
      | some pr =>
        obtain ⟨a2, b2⟩ := pr
        rw [hsp] at h
        simp only [Option.some.injEq, Prod.mk.injEq] at h
        obtain ⟨ha, hb⟩ := h
        obtain ⟨hl, hn⟩ := ih a2 b2 hsp
        rw [← ha, ← hb]
        constructor
        · rw [hl]
          simp
        · intro hmem
          rcases List.mem_cons.mp hmem with hx | hx
          · exact hc hx.symm
          · exact hn hx

theorem splitOnceSep_none :
    ∀ l : List Char, splitOnceSep l = none → sepChar ∉ l := by
  intro l
  induction l with
  | nil => intro _ hmem; simp at hmem
  | cons c rest ih =>
    intro h hmem
    rw [splitOnceSep.eq_def] at h
    simp only [] at h
    by_cases hc : c = sepChar
    · rw [if_pos hc] at h
      simp at h
    · rw [if_neg hc] at h
      cases hsp : splitOnceSep rest with
      | none =>
        rcases List.mem_cons.mp hmem with hx | hx
        · exact hc hx.symm
        · exact ih hsp hx
      | some pr => rw [hsp] at h; obtain ⟨a, b⟩ := pr; simp at h

/-- C3: `parse_recipient_and_thread_meta` leaves a separator-free
recipient whole with no metadata; with one separator it decodes the
trailing payload (malformed payloads degrade to no metadata, the
operation is total); with a second separator the segment between the
separators is discarded as a legacy uid and only the trailing segment is
decoded. -/
theorem spec_c3_recipient_parsing (recipient : String) :
    (splitOnceSep recipient.data = none →
      parse_recipient_and_thread_meta recipient = (recipient, none)) ∧
    (∀ a b, splitOnceSep recipient.data = some (a, b) →
      splitOnceSep b = none →
      parse_recipient_and_thread_meta recipient =
        (String.mk a, decode_thread_meta (String.mk b))) ∧
    (∀ a b u c, splitOnceSep recipient.data = some (a, b) →
      splitOnceSep b = some (u, c) →
      parse_recipient_and_thread_meta recipient =
        (String.mk a, decode_thread_meta (String.mk c))) := by
  refine ⟨?_, ?_, ?_⟩
  · intro h
    rw [parse_recipient_and_thread_meta, h]
  · intro a b hab hb
    rw [parse_recipient_and_thread_meta, hab]
    simp only []
    cases hdec : decode_thread_meta (String.mk b) with
    | some meta => rfl
    | none => rw [hb]
  · intro a b u c hab hb
    rw [parse_recipient_and_thread_meta, hab]
    simp only []
    have hbsep : sepChar ∈ b := by
      obtain ⟨hl, _⟩ := splitOnceSep_some b u c hb
      rw [hl]
      simp
    rw [decode_thread_meta_sep (String.mk b) hbsep, hb]

/-- Witness for C3: a concrete legacy three-segment recipient decodes
the trailing segment and discards the uid. -/
theorem spec_c3_recipient_parsing_witness :
    parse_recipient_and_thread_meta
      (String.mk ("alice@example.com".data ++ sepChar ::
        ("12345".data ++ sepChar :: renderMeta ⟨some "<i>", some "S"⟩))) =
      (String.mk "alice@example.com".data,
        decode_thread_meta (String.mk (renderMeta ⟨some "<i>", some "S"⟩))) :=
  (spec_c3_recipient_parsing _).2.2 "alice@example.com".data
    ("12345".data ++ sepChar :: renderMeta ⟨some "<i>", some "S"⟩)
    "12345".data (renderMeta ⟨some "<i>", some "S"⟩)
    (by decide) (by decide)

end ZeroClaw
